import Mathlib

/-!
Verification of the core logic of `code2prompt-manager` (src/index.js):
the glob-style path matcher, the filesystem scanner, the size estimator,
the auto-exclusion planner and the selection reconciler, embedded shallowly
over `List Char` strings and an inductive filesystem tree.
-/

namespace C2PM

/-- Strings are modelled as lists of characters. -/
abbrev Str := List Char

/-- The three-character suffix `/**` used by directory-subtree patterns. -/
def slashStarStar : Str := ['/', '*', '*']

/-! ### Path matcher (src/index.js `utils.isPathExcluded`, lines 97-120)

The wildcard branch builds a JavaScript regular expression with
`'^' + pattern.replace(/\*\*/g, '.*').replace(/\*/g, '[^/]*') + '$'`
and tests the path against it.  The two `replace` calls are transcribed
character by character; the JS regular-expression engine (a runtime
builtin, not repository code) is modelled by `parseRx`/`rmatch` on the
fragment of regex syntax those replacements can emit (literal characters,
`.`, the class `[^/]`, and postfix `*`); a regex outside that fragment is
modelled as matching nothing. -/

/-- Transcription of `pattern.replace(/\*\*/g, '.*')`: leftmost,
non-overlapping global replacement of `**` by `.*`. -/
def replaceDoubleStar : Str → Str
  | '*' :: '*' :: rest => '.' :: '*' :: replaceDoubleStar rest
  | c :: rest => c :: replaceDoubleStar rest
  | [] => []

/-- Transcription of `s.replace(/\*/g, '[^/]*')`: global replacement of
every `*` by the five characters `[^/]*`. -/
def replaceSingleStar : Str → Str
  | '*' :: rest => '[' :: '^' :: '/' :: ']' :: '*' :: replaceSingleStar rest
  | c :: rest => c :: replaceSingleStar rest
  | [] => []

/-- Base regex atoms that the compiled patterns can contain. -/
inductive RBase where
  | lit (c : Char)
  | dot
  | nonSlash
deriving DecidableEq, Repr

/-- One regex piece: a base atom, possibly starred. -/
structure RPiece where
  base : RBase
  starred : Bool
deriving DecidableEq, Repr

/-- Characters that are special in a JS regular expression and that the
model does not interpret as literals.  (`{` and `}` are written via
`Char.ofNat` only to keep them out of string/char literals.) -/
def rxMeta : List Char :=
  ['\\', '^', '$', '|', '?', '*', '+', '(', ')', '[', ']', Char.ofNat 123, Char.ofNat 125]

/-- Parse the body of a regex (between the `^` and `$` anchors) into
pieces.  Returns `none` on syntax the model does not support. -/
def parseRx : Str → Option (List RPiece)
  | [] => some []
  | '[' :: '^' :: '/' :: ']' :: '*' :: rest => (parseRx rest).map (⟨RBase.nonSlash, true⟩ :: ·)
  | '[' :: '^' :: '/' :: ']' :: rest => (parseRx rest).map (⟨RBase.nonSlash, false⟩ :: ·)
  | '.' :: '*' :: rest => (parseRx rest).map (⟨RBase.dot, true⟩ :: ·)
  | '.' :: rest => (parseRx rest).map (⟨RBase.dot, false⟩ :: ·)
  | c :: '*' :: rest =>
    if c ∈ rxMeta then none else (parseRx rest).map (⟨RBase.lit c, true⟩ :: ·)
  | c :: rest =>
    if c ∈ rxMeta then none else (parseRx rest).map (⟨RBase.lit c, false⟩ :: ·)

/-- Does a base atom match one character? -/
def baseMatch : RBase → Char → Bool
  | RBase.lit c, d => c == d
  | RBase.dot, _ => true
  | RBase.nonSlash, d => d != '/'

/-- Match a piece list against a whole string (both ends anchored).  A
starred piece consumes any number of matching characters. -/
def rmatch : List RPiece → Str → Bool
  | [], s => s.isEmpty
  | ⟨b, false⟩ :: ps, s =>
    match s with
    | [] => false
    | c :: s2 => baseMatch b c && rmatch ps s2
  | ⟨b, true⟩ :: ps, s =>
    (List.range (s.length + 1)).any fun i =>
      (s.take i).all (baseMatch b) && rmatch ps (s.drop i)

/-- The regex string the source builds for a wildcard pattern. -/
def regexOf (pattern : Str) : Str :=
  '^' :: (replaceSingleStar (replaceDoubleStar pattern)) ++ ['$']

/-- Strip the `^`/`$` anchors and parse the body. -/
def compileRegex : Str → Option (List RPiece)
  | '^' :: rest =>
    if rest.getLast? = some '$' then parseRx rest.dropLast else none
  | _ => none

/-- Model of `new RegExp(rx).test(s)` for the emitted regexes. -/
def jsRegexTest (rx s : Str) : Bool :=
  match compileRegex rx with
  | some pieces => rmatch pieces s
  | none => false

/-- Transcription of `utils.isPathExcluded(itemPath, pattern)`
(src/index.js lines 97-120).  The source distinguishes top-level and
path-specified directory patterns but gives them identical bodies. -/
def isPathExcludedL (itemPath pattern : Str) : Bool :=
  if slashStarStar <:+ pattern then
    let dirName := pattern.take (pattern.length - 3)
    if ¬ ('/' ∈ dirName) then
      decide (itemPath = dirName ∨ (dirName ++ ['/']) <+: itemPath)
    else
      decide (itemPath = dirName ∨ (dirName ++ ['/']) <+: itemPath)
  else if ¬ ('*' ∈ pattern) then
    decide (itemPath = pattern)
  else
    jsRegexTest (regexOf pattern) itemPath

/-- Transcription of `utils.isExcluded(itemPath, excludePatterns)`. -/
def isExcludedL (itemPath : Str) (excludePatterns : List Str) : Bool :=
  excludePatterns.any fun pattern => isPathExcludedL itemPath pattern

/-- Direct reading of a wildcard pattern as the piece sequence the
source's two replacements effectively produce: `**` becomes one
arbitrary character followed by a run of non-separator characters,
a remaining single `*` becomes a run of non-separator characters,
`.` matches one arbitrary character (it is not escaped), and any other
character matches itself. -/
def tokenize : Str → List RPiece
  | '*' :: '*' :: rest => ⟨RBase.dot, false⟩ :: ⟨RBase.nonSlash, true⟩ :: tokenize rest
  | '*' :: rest => ⟨RBase.nonSlash, true⟩ :: tokenize rest
  | c :: rest =>
    (if c = '.' then (⟨RBase.dot, false⟩ : RPiece) else ⟨RBase.lit c, false⟩) :: tokenize rest
  | [] => []

/-- Characters a wildcard pattern may contain for the regex model to be
exact: anything except the regex metacharacters other than `*` and `.`. -/
def badChars : List Char :=
  ['\\', '^', '$', '|', '?', '+', '(', ')', '[', ']', Char.ofNat 123, Char.ofNat 125]

/-! ### Configuration constants (src/index.js `CONFIG`, lines 12-43) -/

/-- `CONFIG.COMMON_EXCLUDE_DIRS`. -/
def commonExcludeDirs : List Str :=
  ["node_modules".data, ".git".data, "vendor".data, ".next".data, "dist".data,
   "build".data, ".husky".data, "public".data, "docs".data, "assets/fonts".data,
   "assets/images".data, "assets/svg".data, "src/assets/images".data,
   "assets/icons".data, "languages".data, "images".data, "tests".data]

/-- `CONFIG.COMMON_EXCLUDE_FILES`. -/
def commonExcludeFiles : List Str :=
  ["screenshot.png".data, "screenshot.jpg".data, "package-lock.json".data,
   "composer.lock".data, "yarn.lock".data, "*.min.js".data, "*.min.css".data]

/-- The `defaultExcludes` list built by `prepareExcludePatterns`
(src/index.js lines 264-271): every common directory with a `/**` suffix,
then the common file patterns. -/
def defaultExcludes : List Str :=
  commonExcludeDirs.map (fun dir => dir ++ slashStarStar) ++ commonExcludeFiles

/-! ### Filesystem scanner (src/index.js `scanDirectory`, lines 190-261)

The filesystem is modelled as a tree.  A node whose `statOk` flag is
false makes `fs.statSync` throw for it; a directory whose `readOk` flag
is false makes `fs.readdirSync` throw.  Warnings stand for the
`utils.log.warning` calls; their exact text and absolute-path formatting
are not modelled, only which entry each warning concerns.  The entry
field `prettySize` (a formatted string derived from `size`) is omitted:
no claim concerns it. -/

/-- One scanned entry (the object pushed into `items`). -/
structure Entry where
  path : Str
  isDirectory : Bool
  size : Nat
deriving DecidableEq, Repr

/-- A filesystem node. -/
inductive FSNode where
  | file (name : Str) (size : Nat) (statOk : Bool)
  | dir (name : Str) (children : List FSNode) (statOk readOk : Bool)
deriving Repr

/-- Name of a node. -/
def FSNode.name : FSNode → Str
  | .file n _ _ => n
  | .dir n _ _ _ => n

/-- Whether `fs.statSync` succeeds on the node. -/
def FSNode.statOk : FSNode → Bool
  | .file _ _ so => so
  | .dir _ _ so _ => so

/-- A logged warning: `Could not access <entry>` (statSync threw) or
`Could not read directory <dir>` (readdirSync threw). -/
inductive Warning where
  | accessFailed (relPath : Str)
  | readDirFailed (relPath : Str)
deriving DecidableEq, Repr

/-- `path.join(baseDir, entry)` for the scanner's relative paths: the
empty base yields the bare name, otherwise the slash-joined path. -/
def joinRel (baseDir n : Str) : Str :=
  if baseDir = [] then n else baseDir ++ '/' :: n

/-! Transcription of `utils.getDirSize` (lines 68-94): recursively sums
descendant file sizes, contributing 0 for anything unreadable. -/
mutual
def getDirSize : FSNode → Nat
  | .file _ _ _ => 0
  | .dir _ children _ readOk => if readOk then getDirSizeList children else 0

def getDirSizeList : List FSNode → Nat
  | [] => 0
  | c :: rest =>
    (if c.statOk then
      match c with
      | .dir n children so ro => getDirSize (.dir n children so ro)
      | .file _ sz _ => sz
     else 0) + getDirSizeList rest
end

/-- Transcription of the skip test (lines 206-215): a slash-free skip
name matches a top-level directory of that name; a slash-containing skip
entry matches the full relative path. -/
def shouldSkip (skipDirs : List Str) (entryName relativePath baseDir : Str) : Bool :=
  skipDirs.any fun skipPath =>
    if ¬ ('/' ∈ skipPath) then decide (entryName = skipPath ∧ baseDir = [])
    else decide (relativePath = skipPath)

/-! Transcription of the recursive `scan` helper (lines 193-254).
`scanEntry` handles one entry whose `statSync` succeeded; `scanList`
walks a directory listing, turning a failed `statSync` into a warning
and continuing.  An unreadable (not skipped) directory still gets its
entry pushed — with `getDirSize` 0 — before the recursive
`readdirSync` fails and is caught with a warning. -/
mutual
def scanEntry (skipDirs : List Str) : FSNode → Str → List Entry × List Warning
  | .file n sz _, baseDir => ([⟨joinRel baseDir n, false, sz⟩], [])
  | .dir n children so ro, baseDir =>
    let relativePath := joinRel baseDir n
    if shouldSkip skipDirs n relativePath baseDir then
      ([⟨relativePath, true, 0⟩], [])
    else
      let dirSize := getDirSize (.dir n children so ro)
      if ro then
        let sub := scanList skipDirs children relativePath
        (⟨relativePath, true, dirSize⟩ :: sub.1, sub.2)
      else
        ([⟨relativePath, true, dirSize⟩], [Warning.readDirFailed relativePath])

def scanList (skipDirs : List Str) : List FSNode → Str → List Entry × List Warning
  | [], _ => ([], [])
  | node :: rest, baseDir =>
    let head :=
      if node.statOk then scanEntry skipDirs node baseDir
      else ([], [Warning.accessFailed (joinRel baseDir node.name)])
    let tail := scanList skipDirs rest baseDir
    (head.1 ++ tail.1, head.2 ++ tail.2)
end

/-- Stable insertion into a descending-sorted list. -/
def insertDescBy (key : α → Nat) (x : α) : List α → List α
  | [] => [x]
  | y :: ys => if key y ≤ key x then x :: y :: ys else y :: insertDescBy key x ys

/-- Stable sort, largest key first: models `.sort((a, b) => b.size - a.size)`. -/
def sortDescBy (key : α → Nat) : List α → List α
  | [] => []
  | x :: xs => insertDescBy key x (sortDescBy key xs)

/-- Transcription of `scanDirectory(rootDir, skipDirs)` (lines 190-261):
scan from the root — a root whose listing fails (or that is not a
directory) is caught by the same try/catch as every other directory,
yielding a warning and no items — then sort by size, largest first. -/
def scanDirectory (rootDir : FSNode) (skipDirs : List Str) : List Entry × List Warning :=
  match rootDir with
  | .dir _ children _ true =>
    let r := scanList skipDirs children []
    (sortDescBy Entry.size r.1, r.2)
  | _ => ([], [Warning.readDirFailed []])

/-! ### Size estimator (src/index.js `estimateFinalSize`, lines 295-309) -/

/-- Transcription of `estimateFinalSize(items, excludePatterns)`. -/
def estimateFinalSize (items : List Entry) (excludePatterns : List Str) : Nat :=
  let totalSize := items.foldl
    (fun acc item =>
      if !item.isDirectory && !isExcludedL item.path excludePatterns then acc + item.size
      else acc) 0
  let markdownOverhead := min (items.length * 100) (50 * 1024)
  totalSize + markdownOverhead

/-! ### Auto-exclusion planner (src/index.js `autoExcludeFiles`, lines 359-391)

`targetSize = sizeLimit * 0.95` is modelled exactly as the rational
95/100: the loop guard `remainingSize > targetSize` becomes
`100 * remainingSize > 95 * sizeLimit` over the integers.  Sizes are
subtracted in `Int`, as JS numbers may go below zero. -/

/-- One checkbox choice built by `createSelectionChoices` for a file:
its `value` (the path), its `size`, and whether it starts checked. -/
structure Choice where
  value : Str
  size : Nat
  checked : Bool
deriving DecidableEq, Repr

/-- The file choices built by `createSelectionChoices` (lines 312-328):
files only, sorted by size descending, pre-checked iff already excluded. -/
def fileChoicesOf (items : List Entry) (allExcludes : List Str) : List Choice :=
  (sortDescBy Entry.size (items.filter fun item => !item.isDirectory)).map
    fun item => ⟨item.path, item.size, isExcludedL item.path allExcludes⟩

/-- The `for … of filesToConsider` loop of `autoExcludeFiles`: take
candidates while the remaining size still exceeds the target. -/
def autoGo (sizeLimit : Int) : List Choice → Int → List Str
  | [], _ => []
  | c :: rest, remainingSize =>
    if 100 * remainingSize > 95 * sizeLimit then
      c.value :: autoGo sizeLimit rest (remainingSize - (c.size : Int))
    else []

/-- Transcription of `autoExcludeFiles(choices, initialSize, sizeLimit,
autoExclude)`: no-op unless enabled and over the limit, otherwise
greedily mark the unchecked choices, largest first. -/
def autoExcludeFiles (choices : List Choice) (initialSize sizeLimit : Int)
    (autoExclude : Bool) : List Str :=
  if autoExclude ∧ initialSize > sizeLimit then
    autoGo sizeLimit (sortDescBy Choice.size (choices.filter fun c => !c.checked)) initialSize
  else []

/-! ### Selection reconciler (src/index.js lines 459-468 and 534-542) -/

/-- Accumulator pass behind `dedupFirst`: keep an element iff it has
not been seen yet. -/
def dedupFirstAux : List Str → List Str → List Str
  | [], _ => []
  | x :: xs, seen =>
    if x ∈ seen then dedupFirstAux xs seen else x :: dedupFirstAux xs (x :: seen)

/-- First-occurrence deduplication: the model of
`Array.from(new Set(list))`, which keeps insertion order. -/
def dedupFirst (l : List Str) : List Str := dedupFirstAux l []

/-- The final exclude list built in `main` (lines 535 and 542):
defaults, extras and the human selection concatenated, deduplicated
keeping first occurrences. -/
def reconcileFinalExcludes (defaults extras selected : List Str) : List Str :=
  dedupFirst (defaults ++ extras ++ selected)

/-- Transcription of `processUnselectedAutoExcludes(autoExcluded,
selectedExcludes)` (lines 459-468): the auto-excluded values the human
did not keep selected. -/
def processUnselectedAutoExcludes (autoExcluded selectedExcludes : List Str) : List Str :=
  autoExcluded.filter fun item => !(decide (item ∈ selectedExcludes))

/-! ### Well-formedness of filesystem trees

Real directory entries have nonempty names without path separators;
several theorems assume this. -/

/-- A name is a legal single-component filename. -/
def nameOk (n : Str) : Bool := decide (n ≠ [] ∧ ¬ '/' ∈ n)

/-! Every name in the tree is a legal single component. -/
mutual
def wfNode : FSNode → Bool
  | .file n _ _ => nameOk n
  | .dir n children _ _ => nameOk n && wfForest children

def wfForest : List FSNode → Bool
  | [] => true
  | c :: rest => wfNode c && wfForest rest
end

/-- Spec-level view of the planner's candidate list: the unchecked
choices, sorted by size descending (stable). -/
def candidatesOf (choices : List Choice) : List Choice :=
  sortDescBy Choice.size (choices.filter fun c => !c.checked)

/-- Sum of candidate sizes, over the integers. -/
def sumSizesInt (l : List Choice) : Int :=
  (l.map fun c => (c.size : Int)).sum

/-- A demonstration tree with a `node_modules` directory nested one
level deep: `r/sub/node_modules/data.txt`. -/
def demoTree : FSNode :=
  FSNode.dir "r".data
    [FSNode.dir "sub".data
      [FSNode.dir "node_modules".data [FSNode.file "data.txt".data 777 true] true true]
      true true] true true

/-- The planner scenario of the spec: files of 500, 300, 200 and 100 KB. -/
def demoChoices : List Choice :=
  [⟨"a".data, 512000, false⟩, ⟨"b".data, 307200, false⟩,
   ⟨"c".data, 204800, false⟩, ⟨"d".data, 102400, false⟩]

/-- Ten thousand identical file entries, for the overhead cap. -/
def bigItems : List Entry := List.replicate 10000 ⟨"x".data, false, 5⟩

/-- Two distinct wildcard-free files for the planner/estimator agreement. -/
def demoItems : List Entry :=
  [⟨"a.txt".data, false, 500000⟩, ⟨"b.txt".data, false, 300000⟩]

/-- A tree whose nested directory `assets/images` has the bare name
`images` — a slash-free member of the default skip set — but whose full
relative path equals the path-qualified default skip entry
`assets/images`. -/
def cexTree : FSNode :=
  FSNode.dir "r".data
    [FSNode.dir "assets".data
      [FSNode.dir "images".data [FSNode.file "pic.png".data 55 true] true true]
      true true] true true

/-! ### Theorems -/

theorem star_of_suffix {p : Str} (h : slashStarStar <:+ p) : '*' ∈ p := by
  obtain ⟨t, rfl⟩ := h
  simp [slashStarStar]

/-- C8: a pattern with no `*` matches exactly the path equal to it. -/
theorem literal_pattern_exact (itemPath pattern : Str) (hstar : ¬ '*' ∈ pattern) :
    (isPathExcludedL itemPath pattern = true ↔ itemPath = pattern) ∧
    isPathExcludedL "package-lock.json".data "package-lock.json".data = true ∧
    isPathExcludedL "sub/package-lock.json".data "package-lock.json".data = false := by
  refine ⟨?_, by decide, by decide⟩
  have hsuf : ¬ slashStarStar <:+ pattern := fun h => hstar (star_of_suffix h)
  rw [isPathExcludedL, if_neg hsuf, if_pos hstar]
  exact decide_eq_true_iff

/-- C7: a pattern ending in `/**` matches exactly the directory path
itself and anything strictly below it, uniformly at every depth. -/
theorem dir_subtree_pattern (itemPath pattern : Str) (hsuf : slashStarStar <:+ pattern) :
    (isPathExcludedL itemPath pattern = true ↔
      itemPath = pattern.take (pattern.length - 3) ∨
        (pattern.take (pattern.length - 3) ++ ['/']) <+: itemPath) ∧
    isPathExcludedL "src/index.ts".data "src/**".data = true ∧
    isPathExcludedL "srcx/index.ts".data "src/**".data = false ∧
    isPathExcludedL "src".data "src/**".data = true := by
  refine ⟨?_, by decide, by decide, by decide⟩
  rw [isPathExcludedL, if_pos hsuf]
  simp only [ ite_self, decide_eq_true_iff]

theorem foldl_size_filter (p : Entry → Bool) :
    ∀ (l : List Entry) (acc : Nat),
      l.foldl (fun a it => if p it then a + it.size else a) acc
        = acc + ((l.filter p).map Entry.size).sum := by
  intro l
  induction l with
  | nil => simp
  | cons x xs ih =>
    intro acc
    by_cases hx : p x <;> simp [hx, ih, Nat.add_assoc]

/-- C4: the estimator sums the sizes of non-excluded files and adds the
capped overhead; with no patterns it sums every file; with 10000 entries
the overhead is exactly `50*1024`. -/
theorem estimator_characterization (items : List Entry) (P : List Str) :
    (estimateFinalSize items P =
      ((items.filter fun it => !it.isDirectory && !isExcludedL it.path P).map Entry.size).sum
        + min (items.length * 100) (50 * 1024)) ∧
    (estimateFinalSize items [] =
      ((items.filter fun it => !it.isDirectory).map Entry.size).sum
        + min (items.length * 100) (50 * 1024)) ∧
    (items.length = 10000 →
      estimateFinalSize items P =
        ((items.filter fun it => !it.isDirectory && !isExcludedL it.path P).map Entry.size).sum
          + 50 * 1024) := by
  have h1 : ∀ Q, estimateFinalSize items Q =
      ((items.filter fun it => !it.isDirectory && !isExcludedL it.path Q).map Entry.size).sum
        + min (items.length * 100) (50 * 1024) := by
    intro Q
    unfold estimateFinalSize
    rw [foldl_size_filter]
    simp
  refine ⟨h1 P, ?_, ?_⟩
  · rw [h1 []]
    simp [isExcludedL]
  · intro hlen
    rw [h1 P, hlen]
    norm_num

theorem mem_dedupFirstAux :
    ∀ (l seen : List Str) (x : Str), x ∈ dedupFirstAux l seen ↔ (x ∈ l ∧ ¬ x ∈ seen) := by
  intro l
  induction l with
  | nil => simp [dedupFirstAux]
  | cons y ys ih =>
    intro seen x
    by_cases hy : y ∈ seen
    · rw [dedupFirstAux, if_pos hy, ih]
      constructor
      · exact fun ⟨h1, h2⟩ => ⟨List.mem_cons_of_mem _ h1, h2⟩
      · rintro ⟨h1, h2⟩
        rcases List.mem_cons.mp h1 with rfl | h1
        · exact absurd hy h2
        · exact ⟨h1, h2⟩
    · rw [dedupFirstAux, if_neg hy]
      simp only [List.mem_cons, ih]
      constructor
      · rintro (rfl | ⟨h1, h2⟩)
        · exact ⟨Or.inl rfl, hy⟩
        · exact ⟨Or.inr h1, fun hc => h2 (Or.inr hc)⟩
      · rintro ⟨rfl | h1, h2⟩
        · exact Or.inl rfl
        · by_cases hxy : x = y
          · exact Or.inl hxy
          · exact Or.inr ⟨h1, fun hc => by
              rcases hc with h | h
              · exact hxy h
              · exact h2 h⟩

theorem nodup_dedupFirstAux : ∀ (l seen : List Str), (dedupFirstAux l seen).Nodup := by
  intro l
  induction l with
  | nil => intro seen; simp [dedupFirstAux]
  | cons y ys ih =>
    intro seen
    by_cases hy : y ∈ seen
    · rw [dedupFirstAux, if_pos hy]; exact ih seen
    · rw [dedupFirstAux, if_neg hy]
      refine List.nodup_cons.mpr ⟨?_, ih (y :: seen)⟩
      intro hc
      exact ((mem_dedupFirstAux ys (y :: seen) y).mp hc).2 (List.mem_cons_self _ _)

theorem sublist_dedupFirstAux : ∀ (l seen : List Str), (dedupFirstAux l seen).Sublist l := by
  intro l
  induction l with
  | nil => intro seen; simp [dedupFirstAux]
  | cons y ys ih =>
    intro seen
    by_cases hy : y ∈ seen
    · rw [dedupFirstAux, if_pos hy]; exact (ih seen).trans (List.sublist_cons_self _ _)
    · rw [dedupFirstAux, if_neg hy]; exact List.Sublist.cons₂ _ (ih (y :: seen))

/-- C5: the reconciled final excludes are the deduplicated,
order-preserving concatenation of defaults, extras and the human
selection, and the override report is exactly the auto-excluded values
the human dropped; in the two-file scenario with `auto = [A, B]` and
selection `[A]`, the report is `[B]` and `B` is not in the final list. -/
theorem reconciler_characterization (d e s auto : List Str) (A B : Str)
    (hAB : A ≠ B) (hBd : ¬ B ∈ d) (hBe : ¬ B ∈ e) :
    (∀ x, x ∈ reconcileFinalExcludes d e s ↔ x ∈ d ++ e ++ s) ∧
    (reconcileFinalExcludes d e s).Nodup ∧
    (reconcileFinalExcludes d e s).Sublist (d ++ e ++ s) ∧
    (∀ x, x ∈ processUnselectedAutoExcludes auto s ↔ (x ∈ auto ∧ ¬ x ∈ s)) ∧
    processUnselectedAutoExcludes [A, B] [A] = [B] ∧
    ¬ B ∈ reconcileFinalExcludes d e [A] := by
  refine ⟨?_, nodup_dedupFirstAux _ [], sublist_dedupFirstAux _ [], ?_, ?_, ?_⟩
  · intro x
    rw [reconcileFinalExcludes, dedupFirst, mem_dedupFirstAux]
    simp
  · intro x
    simp [processUnselectedAutoExcludes]
  · have hBA : B ≠ A := Ne.symm hAB
    simp [processUnselectedAutoExcludes, hBA]
  · intro hc
    have := (mem_dedupFirstAux _ [] B).mp hc
    rcases List.mem_append.mp this.1 with h | h
    · rcases List.mem_append.mp h with h | h
      · exact hBd h
      · exact hBe h
    · exact hAB (List.mem_singleton.mp h).symm

/-- C1 counterexample: the claim asserts (a) the compiled regex escapes
metacharacters other than `*` — but the code escapes nothing, so pattern
`*.min.js` (whose `.` stays a regex wildcard) matches `appxminxjs`; and
(b) pattern `**/*.min.js` matches `app.min.js` — but the code's second
`replace` rewrites the `*` inside the just-inserted `.*`, compiling `**`
to `.[^/]*`, and the mandatory `/` then fails on a path with no slash. -/
theorem wildcard_claim_cex :
    isPathExcludedL "app.min.js".data "**/*.min.js".data = false ∧
    isPathExcludedL "appxminxjs".data "*.min.js".data = true := by
  exact ⟨by decide, by decide⟩

theorem mem_insertDescBy (key : α → Nat) (x a : α) :
    ∀ (l : List α), a ∈ insertDescBy key x l ↔ a = x ∨ a ∈ l := by
  intro l
  induction l with
  | nil => simp [insertDescBy]
  | cons y ys ih =>
    rw [insertDescBy]
    by_cases h : key y ≤ key x
    · rw [if_pos h]
      simp [List.mem_cons]
    · rw [if_neg h]
      simp only [List.mem_cons, ih]
      tauto

theorem mem_sortDescBy (key : α → Nat) (a : α) :
    ∀ (l : List α), a ∈ sortDescBy key l ↔ a ∈ l := by
  intro l
  induction l with
  | nil => simp [sortDescBy]
  | cons y ys ih =>
    rw [sortDescBy, mem_insertDescBy]
    simp [ih]

theorem pairwise_insertDescBy (key : α → Nat) (x : α) :
    ∀ (l : List α), List.Pairwise (fun a b => key b ≤ key a) l →
      List.Pairwise (fun a b => key b ≤ key a) (insertDescBy key x l) := by
  intro l
  induction l with
  | nil => intro _; simp [insertDescBy]
  | cons y ys ih =>
    intro hp
    rw [List.pairwise_cons] at hp
    rw [insertDescBy]
    by_cases h : key y ≤ key x
    · rw [if_pos h]
      refine List.pairwise_cons.mpr ⟨?_, List.pairwise_cons.mpr hp⟩
      intro b hb
      rcases List.mem_cons.mp hb with rfl | hb
      · exact h
      · exact le_trans (hp.1 b hb) h
    · rw [if_neg h]
      refine List.pairwise_cons.mpr ⟨?_, ih hp.2⟩
      intro b hb
      rcases (mem_insertDescBy key x b ys).mp hb with rfl | hb
      · exact le_of_not_le h
      · exact hp.1 b hb

theorem sortDescBy_sorted (key : α → Nat) :
    ∀ (l : List α), List.Pairwise (fun a b => key b ≤ key a) (sortDescBy key l) := by
  intro l
  induction l with
  | nil => simp [sortDescBy]
  | cons y ys ih =>
    rw [sortDescBy]
    exact pairwise_insertDescBy key y _ ih

theorem sumSizesInt_cons (c : Choice) (l : List Choice) :
    sumSizesInt (c :: l) = (c.size : Int) + sumSizesInt l := by
  simp [sumSizesInt]

/-- The greedy loop takes exactly the maximal prefix along which the
running remainder stays above the target. -/
theorem autoGo_spec (bb : Int) :
    ∀ (cands : List Choice) (r : Int),
      ∃ k, k ≤ cands.length ∧
        autoGo bb cands r = (cands.take k).map Choice.value ∧
        (∀ i, i < k → 100 * (r - sumSizesInt (cands.take i)) > 95 * bb) ∧
        (k = cands.length ∨ 100 * (r - sumSizesInt (cands.take k)) ≤ 95 * bb) := by
  intro cands
  induction cands with
  | nil =>
    intro r
    exact ⟨0, le_refl 0, rfl, fun i hi => absurd hi (Nat.not_lt_zero i), Or.inl rfl⟩
  | cons c rest ih =>
    intro r
    by_cases hc : 100 * r > 95 * bb
    · obtain ⟨k, hk, heq, hall, hstop⟩ := ih (r - (c.size : Int))
      refine ⟨k + 1, Nat.succ_le_succ hk, ?_, ?_, ?_⟩
      · rw [autoGo, if_pos hc, heq]
        simp
      · intro i hi
        cases i with
        | zero => simpa [sumSizesInt] using hc
        | succ j =>
          have hj := hall j (Nat.lt_of_succ_lt_succ hi)
          rw [List.take_succ_cons, sumSizesInt_cons]
          linarith
      · rcases hstop with h | h
        · exact Or.inl (by simp [h])
        · refine Or.inr ?_
          rw [List.take_succ_cons, sumSizesInt_cons]
          linarith
    · refine ⟨0, Nat.zero_le _, ?_, fun i hi => absurd hi (Nat.not_lt_zero i), Or.inr ?_⟩
      · rw [autoGo, if_neg hc]
        simp
      · simp only [List.take_zero, sumSizesInt, List.map_nil, List.sum_nil]
        linarith [not_lt.mp hc]

theorem autoGo_mem (bb : Int) (v : Str) :
    ∀ (cands : List Choice) (r : Int), v ∈ autoGo bb cands r → v ∈ cands.map Choice.value := by
  intro cands
  induction cands with
  | nil =>
    intro r h
    simp [autoGo] at h
  | cons c rest ih =>
    intro r h
    rw [autoGo] at h
    by_cases hc : 100 * r > 95 * bb
    · rw [if_pos hc] at h
      simp only [List.map_cons, List.mem_cons]
      rcases List.mem_cons.mp h with rfl | h
      · exact Or.inl rfl
      · exact Or.inr (ih _ h)
    · rw [if_neg hc] at h
      simp at h

/-- Every value the planner returns is the value of an unchecked choice
it was given. -/
theorem autoExcludeFiles_values (choices : List Choice) (cs bb : Int) (en : Bool) (v : Str)
    (hv : v ∈ autoExcludeFiles choices cs bb en) :
    ∃ c, c ∈ choices ∧ c.checked = false ∧ c.value = v := by
  rw [autoExcludeFiles] at hv
  split at hv
  · have hm := autoGo_mem bb v _ cs hv
    obtain ⟨c, hc, hval⟩ := List.mem_map.mp hm
    have hc2 := (mem_sortDescBy Choice.size c _).mp hc
    obtain ⟨hcm, hchk⟩ := List.mem_filter.mp hc2
    exact ⟨c, hcm, by simpa using hchk, hval⟩
  · simp at hv

/-- Every file choice the pipeline builds comes from a non-directory
item of the scan, carrying the item's path and size and the baseline
exclusion flag. -/
theorem fileChoicesOf_values (items : List Entry) (aE : List Str) (c : Choice)
    (hc : c ∈ fileChoicesOf items aE) :
    ∃ it, it ∈ items ∧ it.isDirectory = false ∧ it.path = c.value ∧ it.size = c.size ∧
      c.checked = isExcludedL it.path aE := by
  rw [fileChoicesOf] at hc
  obtain ⟨it, hit, rfl⟩ := List.mem_map.mp hc
  have hm := (mem_sortDescBy Entry.size it _).mp hit
  obtain ⟨him, hdir⟩ := List.mem_filter.mp hm
  exact ⟨it, him, by simpa using hdir, rfl, rfl, rfl⟩

/-- C3: the planner is a no-op unless enabled and strictly over budget;
otherwise it walks the unchecked candidates, sorted descending by size,
and returns the values of exactly the maximal greedy prefix along which
the projected remaining size still exceeds 95% of the budget, stopping
as soon as the remainder reaches the target or candidates run out; its
values always come from unchecked candidates, and on the pipeline's file
choices they are always paths of non-directory items. -/
theorem planner_greedy_characterization (choices : List Choice) (cs bb : Int) :
    (autoExcludeFiles choices cs bb false = []) ∧
    (cs ≤ bb → autoExcludeFiles choices cs bb true = []) ∧
    List.Pairwise (fun a b => b.size ≤ a.size) (candidatesOf choices) ∧
    (bb < cs →
      ∃ k, k ≤ (candidatesOf choices).length ∧
        autoExcludeFiles choices cs bb true = ((candidatesOf choices).take k).map Choice.value ∧
        (∀ i, i < k → 100 * (cs - sumSizesInt ((candidatesOf choices).take i)) > 95 * bb) ∧
        (k = (candidatesOf choices).length ∨
          100 * (cs - sumSizesInt ((candidatesOf choices).take k)) ≤ 95 * bb)) ∧
    (∀ en v, v ∈ autoExcludeFiles choices cs bb en →
      ∃ c, c ∈ choices ∧ c.checked = false ∧ c.value = v) ∧
    (∀ (items : List Entry) (aE : List Str) (en : Bool) (v : Str),
      v ∈ autoExcludeFiles (fileChoicesOf items aE) cs bb en →
      ∃ it, it ∈ items ∧ it.isDirectory = false ∧ it.path = v) := by
  refine ⟨?_, ?_, sortDescBy_sorted Choice.size _, ?_, ?_, ?_⟩
  · rw [autoExcludeFiles, if_neg]
    rintro ⟨h, -⟩
    exact Bool.false_ne_true h
  · intro hle
    rw [autoExcludeFiles, if_neg]
    rintro ⟨-, h⟩
    exact absurd hle (not_le.mpr h)
  · intro hlt
    have hcond : (true = true) ∧ cs > bb := ⟨rfl, hlt⟩
    rw [autoExcludeFiles, if_pos hcond]
    exact autoGo_spec bb (candidatesOf choices) cs
  · exact fun en v hv => autoExcludeFiles_values choices cs bb en v hv
  · intro items aE en v hv
    obtain ⟨c, hc, -, hval⟩ := autoExcludeFiles_values _ cs bb en v hv
    obtain ⟨it, him, hdir, hpath, -, -⟩ := fileChoicesOf_values items aE c hc
    exact ⟨it, him, hdir, by rw [hpath, hval]⟩

theorem rds_dd (r : Str) :
    replaceDoubleStar ('*' :: '*' :: r) = '.' :: '*' :: replaceDoubleStar r := rfl

theorem rds_other (c : Char) (rest : Str) (h : c ≠ '*') :
    replaceDoubleStar (c :: rest) = c :: replaceDoubleStar rest := by
  rw [replaceDoubleStar.eq_def]
  split <;> simp_all

theorem rds_single (c : Char) (rest : Str) (h : c ≠ '*') :
    replaceDoubleStar ('*' :: c :: rest) = '*' :: replaceDoubleStar (c :: rest) := by
  rw [replaceDoubleStar.eq_def]
  split
  · rename_i heq
    simp only [List.cons.injEq] at heq
    exact absurd heq.2.1 h
  · rename_i heq
    simp only [List.cons.injEq] at heq
    obtain ⟨h1, h2⟩ := heq
    subst h1
    subst h2
    rw [rds_other c rest h]
  · rename_i heq
    simp at heq

theorem rss_star (r : Str) :
    replaceSingleStar ('*' :: r) = '[' :: '^' :: '/' :: ']' :: '*' :: replaceSingleStar r := rfl

theorem rss_other (c : Char) (rest : Str) (h : c ≠ '*') :
    replaceSingleStar (c :: rest) = c :: replaceSingleStar rest := by
  rw [replaceSingleStar.eq_def]
  split <;> simp_all

theorem rss_head (s : Str) : ∀ r, replaceSingleStar s ≠ '*' :: r := by
  intro r
  rcases s with _ | ⟨c, t⟩
  · simp [replaceSingleStar]
  · by_cases hc : c = '*'
    · subst hc
      rw [rss_star]
      simp
    · rw [rss_other c t hc]
      simp [hc]

theorem prx_class (r : Str) :
    parseRx ('[' :: '^' :: '/' :: ']' :: '*' :: r)
      = (parseRx r).map (⟨RBase.nonSlash, true⟩ :: ·) := rfl

theorem prx_dot_nostar (t : Str) (h : ∀ r, t ≠ '*' :: r) :
    parseRx ('.' :: t) = (parseRx t).map (⟨RBase.dot, false⟩ :: ·) := by
  rw [parseRx.eq_def]
  split
  · rename_i heq
    simp at heq
  · rename_i heq
    simp at heq
  · rename_i heq
    simp at heq
  · rename_i heq
    simp only [List.cons.injEq] at heq
    exact absurd heq.2 (h _)
  · rename_i heq
    simp only [List.cons.injEq] at heq
    rw [heq.2]
  · rename_i hx heq
    simp only [List.cons.injEq] at heq
    exact absurd heq.2 (h _)
  · rename_i hx1 hx2 heq
    simp only [List.cons.injEq] at heq
    exact absurd heq.1.symm hx1

theorem prx_lit_nostar (c : Char) (t : Str) (hm : ¬ c ∈ rxMeta) (hdot : c ≠ '.')
    (h : ∀ r, t ≠ '*' :: r) :
    parseRx (c :: t) = (parseRx t).map (⟨RBase.lit c, false⟩ :: ·) := by
  have hb : ('[' : Char) ∈ rxMeta := by decide
  rw [parseRx.eq_def]
  split
  · rename_i heq
    simp at heq
  · rename_i heq
    simp only [List.cons.injEq] at heq
    obtain ⟨h1, -⟩ := heq
    subst h1
    exact absurd hb hm
  · rename_i hx heq
    simp only [List.cons.injEq] at heq
    obtain ⟨h1, -⟩ := heq
    subst h1
    exact absurd hb hm
  · rename_i heq
    simp only [List.cons.injEq] at heq
    exact absurd heq.1 hdot
  · rename_i hx heq
    simp only [List.cons.injEq] at heq
    exact absurd heq.1 hdot
  · rename_i hx heq
    simp only [List.cons.injEq] at heq
    exact absurd heq.2 (h _)
  · rename_i hx1 hx2 heq
    simp only [List.cons.injEq] at heq
    obtain ⟨h1, h2⟩ := heq
    subst h1
    subst h2
    rw [if_neg hm]

theorem tok_dd (r : Str) :
    tokenize ('*' :: '*' :: r)
      = ⟨RBase.dot, false⟩ :: ⟨RBase.nonSlash, true⟩ :: tokenize r := rfl

theorem tok_single (c : Char) (r : Str) (h : c ≠ '*') :
    tokenize ('*' :: c :: r) = ⟨RBase.nonSlash, true⟩ :: tokenize (c :: r) := by
  rw [tokenize.eq_def]
  split
  · rename_i heq
    simp only [List.cons.injEq] at heq
    exact absurd heq.2.1 h
  · rename_i heq
    simp only [List.cons.injEq] at heq
    rw [heq.2]
  · rename_i hx heq
    simp only [List.cons.injEq] at heq
    exact absurd heq.1.symm hx
  · rename_i heq
    simp at heq

theorem tok_other (c : Char) (r : Str) (h : c ≠ '*') :
    tokenize (c :: r)
      = (if c = '.' then (⟨RBase.dot, false⟩ : RPiece) else ⟨RBase.lit c, false⟩) :: tokenize r := by
  rw [tokenize.eq_def]
  split <;> simp_all

theorem not_mem_rxMeta {c : Char} (hb : ¬ c ∈ badChars) (hs : c ≠ '*') : ¬ c ∈ rxMeta := by
  intro hc
  apply hb
  simp only [rxMeta, List.mem_cons, List.not_mem_nil, or_false] at hc
  simp only [badChars, List.mem_cons, List.not_mem_nil, or_false]
  tauto

/-- The two `replace` calls followed by the regex parser produce exactly
the direct reading of the pattern: in particular `**` really compiles to
"one arbitrary character, then non-separators", because the second
`replace` rewrites the `*` of the freshly inserted `.*`. -/
theorem parse_pipeline_bounded :
    ∀ (n : Nat) (p : Str), p.length ≤ n → (∀ c ∈ p, ¬ c ∈ badChars) →
      parseRx (replaceSingleStar (replaceDoubleStar p)) = some (tokenize p) := by
  intro n
  induction n with
  | zero =>
    intro p hlen _
    have hp : p = [] := List.length_eq_zero.mp (Nat.le_zero.mp hlen)
    subst hp
    rfl
  | succ n ih =>
    intro p hlen hp
    rcases p with _ | ⟨c, rest⟩
    · rfl
    · by_cases hcs : c = '*'
      · subst hcs
        rcases rest with _ | ⟨c2, rest2⟩
        · decide
        · by_cases hc2 : c2 = '*'
          · subst hc2
            have hlen2 : rest2.length ≤ n := by
              simp only [List.length_cons] at hlen
              omega
            have ihr := ih rest2 hlen2 (fun d hd => hp d (by simp [hd]))
            rw [rds_dd, rss_other '.' _ (by decide), rss_star,
              prx_dot_nostar _ (by intro r; simp), prx_class, ihr, tok_dd]
            rfl
          · have hlen2 : (c2 :: rest2).length ≤ n := by
              simp only [List.length_cons] at hlen ⊢
              omega
            have ihr := ih (c2 :: rest2) hlen2 (fun d hd => hp d (by simp at hd ⊢; tauto))
            rw [rds_single c2 rest2 hc2, rss_star, prx_class, ihr, tok_single c2 rest2 hc2]
            rfl
      · have hlen2 : rest.length ≤ n := by
          simp only [List.length_cons] at hlen
          omega
        have ihr := ih rest hlen2 (fun d hd => hp d (by simp [hd]))
        have hcb : ¬ c ∈ badChars := hp c (by simp)
        by_cases hcd : c = '.'
        · subst hcd
          rw [rds_other '.' rest (by decide), rss_other '.' _ (by decide),
            prx_dot_nostar _ (rss_head _), ihr, tok_other '.' rest (by decide), if_pos rfl]
          rfl
        · rw [rds_other c rest hcs, rss_other c _ hcs,
            prx_lit_nostar c _ (not_mem_rxMeta hcb hcs) hcd (rss_head _), ihr,
            tok_other c rest hcs, if_neg hcd]
          rfl

theorem compileRegex_cons (rest : Str) :
    compileRegex ('^' :: rest)
      = if rest.getLast? = some '$' then parseRx rest.dropLast else none := rfl

theorem compileRegex_regexOf (p : Str) (hp : ∀ c ∈ p, ¬ c ∈ badChars) :
    compileRegex (regexOf p) = some (tokenize p) := by
  rw [regexOf, List.cons_append, compileRegex_cons, List.getLast?_concat, if_pos rfl,
    List.dropLast_concat]
  exact parse_pipeline_bounded p.length p (le_refl _) hp

/-- C1 (amended): for a wildcard pattern (containing `*`, not ending in
`/**`, and containing no regex metacharacter other than `*` and `.`),
the matcher accepts exactly the paths matched by the pieces `tokenize`
reads off the pattern — with NO escaping (`.` stays "any character") and
with `**` compiled to "one arbitrary character followed by a run of
non-separator characters" by the two sequential replacements.  Hence
`*.min.js` matches `app.min.js` (and, unescaped, also `appxminxjs`) but
not `sub/app.min.js`, while `**/*.min.js` matches `sub/app.min.js` but
NOT `app.min.js`. -/
theorem wildcard_regex_semantics (pattern path : Str)
    (h1 : '*' ∈ pattern) (h2 : ¬ slashStarStar <:+ pattern)
    (h3 : ∀ c ∈ pattern, ¬ c ∈ badChars) :
    (isPathExcludedL path pattern = rmatch (tokenize pattern) path) ∧
    isPathExcludedL "app.min.js".data "*.min.js".data = true ∧
    isPathExcludedL "sub/app.min.js".data "*.min.js".data = false ∧
    isPathExcludedL "appxminxjs".data "*.min.js".data = true ∧
    isPathExcludedL "sub/app.min.js".data "**/*.min.js".data = true ∧
    isPathExcludedL "app.min.js".data "**/*.min.js".data = false := by
  refine ⟨?_, by decide, by decide, by decide, by decide, by decide⟩
  rw [isPathExcludedL, if_neg h2, if_neg (not_not_intro h1)]
  unfold jsRegexTest
  rw [compileRegex_regexOf pattern h3]

theorem joinRel_nil (n : Str) : joinRel [] n = n := rfl

theorem joinRel_cons (base n : Str) (h : base ≠ []) : joinRel base n = base ++ '/' :: n := by
  rw [joinRel, if_neg h]

theorem joinRel_ne_nil (base n : Str) (h : n ≠ []) : joinRel base n ≠ [] := by
  rw [joinRel]
  split
  · exact h
  · simp

theorem length_lt_joinRel (base n : Str) (h : n ≠ []) : base.length < (joinRel base n).length := by
  rw [joinRel]
  split
  · rename_i hb
    subst hb
    simpa using List.length_pos.mpr h
  · simp only [List.length_append, List.length_cons]
    omega

theorem mem_of_pref_concat {l m : Str} {c : Char} (h : (l ++ [c]) <+: m) : c ∈ m := by
  obtain ⟨t, rfl⟩ := h
  simp

/-- If `sp ++ "/"` is a prefix of `base ++ "/" ++ name` where `name` has
no slash, then `sp` is `base` itself or ends strictly inside `base`. -/
theorem slash_of_pref (name : Str) (hname : ¬ '/' ∈ name) :
    ∀ (base : Str), ∀ (sp : Str),
      (sp ++ ['/']) <+: joinRel base name → base = sp ∨ (sp ++ ['/']) <+: base := by
  intro base
  induction base with
  | nil =>
    intro sp h
    rw [joinRel_nil] at h
    exact absurd (mem_of_pref_concat h) hname
  | cons b bs ih =>
    intro sp h
    rw [joinRel_cons _ _ (by simp)] at h
    rcases sp with _ | ⟨x, xs⟩
    · simp only [List.nil_append, List.cons_append] at h
      rw [ List.cons_prefix_cons] at h
      exact Or.inr (by
        rw [List.nil_append, h.1]
        exact ⟨bs, rfl⟩)
    · rw [List.cons_append, List.cons_append, List.cons_prefix_cons] at h
      obtain ⟨rfl, h2⟩ := h
      rcases hbs : bs with _ | ⟨b2, bs2⟩
      · subst hbs
        rcases xs with _ | ⟨y, ys⟩
        · exact Or.inl rfl
        · rw [List.nil_append, List.cons_append, List.cons_prefix_cons] at h2
          obtain ⟨rfl, h3⟩ := h2
          exact absurd (mem_of_pref_concat h3) hname
      · subst hbs
        have h2j : (xs ++ ['/']) <+: joinRel (b2 :: bs2) name := by
          rwa [joinRel_cons _ _ (by simp)]
        rcases ih xs h2j with heq | hpr
        · exact Or.inl (by rw [heq])
        · exact Or.inr (by
            rw [List.cons_append, List.cons_prefix_cons]
            exact ⟨rfl, hpr⟩)

/-- Two slash-free segments starting two slash-separated paths agree if
one's segment boundary is a prefix of the other path. -/
theorem seg_eq_of_pref (tail : Str) :
    ∀ (t s : Str), ¬ '/' ∈ s → ¬ '/' ∈ t →
      (s ++ ['/']) <+: (t ++ '/' :: tail) → s = t := by
  intro t
  induction t with
  | nil =>
    intro s hs _ h
    rcases s with _ | ⟨x, xs⟩
    · rfl
    · rw [List.nil_append, List.cons_append, List.cons_prefix_cons] at h
      exact absurd (h.1 ▸ List.mem_cons_self x xs) hs
  | cons c t2 ih =>
    intro s hs ht h
    rcases s with _ | ⟨x, xs⟩
    · rw [List.nil_append, List.cons_append, List.cons_prefix_cons] at h
      exact absurd (h.1 ▸ List.mem_cons_self c t2) ht
    · rw [List.cons_append, List.cons_append, List.cons_prefix_cons] at h
      obtain ⟨rfl, h2⟩ := h
      have : xs = t2 :=
        ih xs (fun hc => hs (List.mem_cons_of_mem _ hc)) (fun hc => ht (List.mem_cons_of_mem _ hc)) h2
      rw [this]

theorem wfForest_mem : ∀ {l : List FSNode} {c : FSNode},
    wfForest l = true → c ∈ l → wfNode c = true := by
  intro l
  induction l with
  | nil => intro c _ hc; simp at hc
  | cons d rest ih =>
    intro c hl hc
    rw [wfForest, Bool.and_eq_true] at hl
    rcases List.mem_cons.mp hc with rfl | hc
    · exact hl.1
    · exact ih hl.2 hc

theorem wfNode_name {node : FSNode} (h : wfNode node = true) :
    node.name ≠ [] ∧ ¬ '/' ∈ node.name := by
  rcases node with ⟨n, sz, so⟩ | ⟨n, children, so, ro⟩
  · rw [wfNode, nameOk, decide_eq_true_iff] at h
    exact h
  · rw [wfNode, Bool.and_eq_true, nameOk, decide_eq_true_iff] at h
    exact h.1

theorem wfNode_children {n : Str} {children : List FSNode} {so ro : Bool}
    (h : wfNode (FSNode.dir n children so ro) = true) : wfForest children = true := by
  rw [wfNode, Bool.and_eq_true] at h
  exact h.2

/-- Membership in a level's scan output comes from exactly one of the
level's stat-able nodes. -/
theorem mem_scanList (sk : List Str) (e : Entry) :
    ∀ (nodes : List FSNode) (base : Str),
      e ∈ (scanList sk nodes base).1 ↔
        ∃ n, n ∈ nodes ∧ n.statOk = true ∧ e ∈ (scanEntry sk n base).1 := by
  intro nodes
  induction nodes with
  | nil =>
    intro base
    simp [scanList]
  | cons node rest ih =>
    intro base
    rw [scanList]
    by_cases hs : node.statOk
    · simp only [if_pos hs, List.mem_append, ih]
      constructor
      · rintro (h | ⟨n, hn, hns, hne⟩)
        · exact ⟨node, List.mem_cons_self _ _, hs, h⟩
        · exact ⟨n, List.mem_cons_of_mem _ hn, hns, hne⟩
      · rintro ⟨n, hn, hns, hne⟩
        rcases List.mem_cons.mp hn with rfl | hn
        · exact Or.inl hne
        · exact Or.inr ⟨n, hn, hns, hne⟩
    · simp only [if_neg hs, List.nil_append, ih]
      constructor
      · rintro ⟨n, hn, hns, hne⟩
        exact ⟨n, List.mem_cons_of_mem _ hn, hns, hne⟩
      · rintro ⟨n, hn, hns, hne⟩
        rcases List.mem_cons.mp hn with rfl | hn
        · exact absurd hns (by simpa using hs)
        · exact ⟨n, hn, hns, hne⟩

/-- Every entry a node contributes has that node's relative path or a
path strictly below it. -/
theorem scanEntry_path_shape (sk : List Str) :
    ∀ (m : Nat) (node : FSNode) (base : Str) (e : Entry),
      sizeOf node ≤ m → wfNode node = true →
      e ∈ (scanEntry sk node base).1 →
      e.path = joinRel base node.name ∨ (joinRel base node.name ++ ['/']) <+: e.path := by
  intro m
  induction m with
  | zero =>
    intro node base e hsz _ _
    cases node <;> simp_arith at hsz
  | succ m ih =>
    intro node base e hsz hwf he
    rcases node with ⟨n, sz, so⟩ | ⟨n, children, so, ro⟩
    · simp only [scanEntry, List.mem_singleton] at he
      rw [he]
      exact Or.inl rfl
    · by_cases hskip : shouldSkip sk n (joinRel base n) base
      · simp only [scanEntry, hskip, if_true] at he
        rw [List.mem_singleton] at he
        rw [he]
        exact Or.inl rfl
      · by_cases hro : ro = true
        · subst hro
          simp only [scanEntry, hskip, if_false, Bool.false_eq_true, if_true] at he
          rcases List.mem_cons.mp he with rfl | hmem
          · exact Or.inl rfl
          · obtain ⟨c, hc, hcs, hce⟩ := (mem_scanList sk e children (joinRel base n)).mp hmem
            have hszc : sizeOf c ≤ m := by
              have h1 := List.sizeOf_lt_of_mem hc
              have h2 : sizeOf children < sizeOf (FSNode.dir n children so true) := by
                simp
                omega
              omega
            have hwfc := wfForest_mem (wfNode_children hwf) hc
            have hnn : n ≠ [] := (wfNode_name hwf).1
            have hrel_ne : joinRel base n ≠ [] := joinRel_ne_nil base n hnn
            have hjoin : joinRel (joinRel base n) c.name
                = (joinRel base n ++ ['/']) ++ c.name := by
              rw [joinRel_cons _ _ hrel_ne]
              simp
            rcases ih c (joinRel base n) e hszc hwfc hce with hpath | hpref
            · refine Or.inr ?_
              show (joinRel base n ++ ['/']) <+: e.path
              rw [hpath, hjoin]
              exact ⟨c.name, rfl⟩
            · refine Or.inr ?_
              show (joinRel base n ++ ['/']) <+: e.path
              refine List.IsPrefix.trans ?_ hpref
              rw [hjoin]
              exact ⟨c.name ++ ['/'], by simp⟩
        · have hro2 : ro = false := by
            cases ro
            · rfl
            · exact absurd rfl hro
          subst hro2
          simp only [scanEntry, hskip, if_false, Bool.false_eq_true] at he
          rw [List.mem_singleton] at he
          rw [he]
          exact Or.inl rfl

/-- If the current base is not at or below the skip path `sp`, no entry
of the subtree scan has a path below `sp`: the directory at `sp` itself
is always skipped before the scanner could descend. -/
theorem scan_notUnder (sk : List Str) (sp : Str) (hsp : sp ∈ sk) (hne : sp ≠ []) :
    ∀ (m : Nat) (node : FSNode) (base : Str) (e : Entry),
      sizeOf node ≤ m → wfNode node = true →
      ¬ (base = sp ∨ (sp ++ ['/']) <+: base) →
      e ∈ (scanEntry sk node base).1 → ¬ ((sp ++ ['/']) <+: e.path) := by
  intro m
  induction m with
  | zero =>
    intro node base e hsz _ _ _
    cases node <;> simp_arith at hsz
  | succ m ih =>
    intro node base e hsz hwf hnu he hpre
    rcases node with ⟨n, sz, so⟩ | ⟨n, children, so, ro⟩
    · simp only [scanEntry, List.mem_singleton] at he
      rw [he] at hpre
      exact hnu (slash_of_pref n (wfNode_name hwf).2 base sp hpre)
    · have hnslash : ¬ '/' ∈ n := (wfNode_name hwf).2
      by_cases hskip : shouldSkip sk n (joinRel base n) base
      · simp only [scanEntry, hskip, if_true] at he
        rw [List.mem_singleton] at he
        rw [he] at hpre
        exact hnu (slash_of_pref n hnslash base sp hpre)
      · by_cases hro : ro = true
        · subst hro
          simp only [scanEntry, hskip, if_false, Bool.false_eq_true, if_true] at he
          rcases List.mem_cons.mp he with rfl | hmem
          · exact hnu (slash_of_pref n hnslash base sp hpre)
          · obtain ⟨c, hc, hcs, hce⟩ := (mem_scanList sk e children (joinRel base n)).mp hmem
            have hszc : sizeOf c ≤ m := by
              have h1 := List.sizeOf_lt_of_mem hc
              have h2 : sizeOf children < sizeOf (FSNode.dir n children so true) := by
                simp
                omega
              omega
            have hwfc := wfForest_mem (wfNode_children hwf) hc
            refine ih c (joinRel base n) e hszc hwfc ?_ hce hpre
            rintro (hre | hpr2)
            · by_cases hslash : '/' ∈ sp
              · refine hskip ?_
                rw [shouldSkip, List.any_eq_true]
                refine ⟨sp, hsp, ?_⟩
                rw [if_neg (not_not_intro hslash), decide_eq_true_iff]
                exact hre
              · rcases hbase : base with _ | ⟨b, bs⟩
                · subst hbase
                  refine hskip ?_
                  rw [shouldSkip, List.any_eq_true]
                  refine ⟨sp, hsp, ?_⟩
                  rw [if_pos (by simpa using hslash), decide_eq_true_iff]
                  exact ⟨by rw [← hre, joinRel_nil], rfl⟩
                · subst hbase
                  refine hslash ?_
                  rw [← hre, joinRel_cons _ _ (by simp)]
                  exact List.mem_append.mpr (Or.inr (List.mem_cons_self _ _))
            · exact hnu (slash_of_pref n hnslash base sp hpr2)
        · have hro2 : ro = false := by
            cases ro
            · rfl
            · exact absurd rfl hro
          subst hro2
          simp only [scanEntry, hskip, if_false, Bool.false_eq_true] at he
          rw [List.mem_singleton] at he
          rw [he] at hpre
          exact hnu (slash_of_pref n hnslash base sp hpre)

theorem not_pref_join (base name m : Str) (hname : name ≠ []) (hm : ¬ '/' ∈ m) :
    ¬ ((joinRel base name ++ ['/']) <+: joinRel base m) := by
  intro h
  rcases slash_of_pref m hm base (joinRel base name) h with heq | hp
  · have h2 := length_lt_joinRel base name hname
    rw [← heq] at h2
    exact absurd h2 (lt_irrefl _)
  · have h1 := hp.length_le
    have h2 := length_lt_joinRel base name hname
    simp only [List.length_append, List.length_cons, List.length_nil] at h1
    omega

theorem joinRel_inj {base m1 m2 : Str} (h : joinRel base m1 = joinRel base m2) : m1 = m2 := by
  by_cases hb : base = [] <;> simp [joinRel, hb] at h <;> exact h

/-- A node whose name is skip-matched at its base contributes exactly
one entry, at its own relative path. -/
theorem scanEntry_name_skip (sk : List Str) (n : FSNode) (base : Str) (e : Entry)
    (hskip : shouldSkip sk n.name (joinRel base n.name) base = true)
    (he : e ∈ (scanEntry sk n base).1) : e.path = joinRel base n.name := by
  rcases n with ⟨nm, sz, so⟩ | ⟨nm, children, so, ro⟩
  · simp only [scanEntry, List.mem_singleton] at he
    rw [he]
    rfl
  · simp only [FSNode.name] at hskip
    simp only [scanEntry, hskip, if_true, List.mem_singleton] at he
    rw [he]
    rfl

/-- C6: a directory encountered during the scan whose bare name (at top
level, slash-free skip entry) or full relative path (slash-containing
skip entry) matches the skip set is recorded as an Entry with
`isDirectory = true` and `size = 0`, the scanner does not descend into
it — no entry of that level's scan extends its path — and globally no
entry of `scanDirectory` lies strictly below any nonempty skip entry. -/
theorem scan_skip_semantics (sk : List Str) (nodes : List FSNode) (base : Str)
    (name : Str) (children : List FSNode) (ro : Bool)
    (hwf : wfForest nodes = true)
    (hmem : FSNode.dir name children true ro ∈ nodes)
    (hskip : shouldSkip sk name (joinRel base name) base = true) :
    ((⟨joinRel base name, true, 0⟩ : Entry) ∈ (scanList sk nodes base).1) ∧
    (∀ e ∈ (scanList sk nodes base).1, ¬ ((joinRel base name ++ ['/']) <+: e.path)) ∧
    (∀ (sp : Str) (root : FSNode), sp ∈ sk → sp ≠ [] → wfNode root = true →
      ∀ e ∈ (scanDirectory root sk).1, ¬ ((sp ++ ['/']) <+: e.path)) := by
  have hwfd := wfForest_mem hwf hmem
  have hname_ne : name ≠ [] := (wfNode_name hwfd).1
  have hname_ns : ¬ '/' ∈ name := (wfNode_name hwfd).2
  refine ⟨?_, ?_, ?_⟩
  · rw [mem_scanList]
    refine ⟨FSNode.dir name children true ro, hmem, rfl, ?_⟩
    simp [scanEntry, hskip]
  · intro e he hpre
    obtain ⟨n, hn, hns, hne2⟩ := (mem_scanList sk e nodes base).mp he
    have hwfn := wfForest_mem hwf hn
    rcases scanEntry_path_shape sk (sizeOf n) n base e (le_refl _) hwfn hne2 with hpath | hpref2
    · rw [hpath] at hpre
      exact not_pref_join base name n.name hname_ne (wfNode_name hwfn).2 hpre
    · rcases List.prefix_or_prefix_of_prefix hpre hpref2 with hab | hba
      · rcases List.prefix_concat_iff.mp hab with hab2 | hab2
        · -- equality of the two slash-terminated prefixes
          have hJ : joinRel base name = joinRel base n.name := by
            have := congrArg List.dropLast hab2
            rwa [List.dropLast_concat, List.dropLast_concat] at this
          have hnm : n.name = name := (joinRel_inj hJ.symm)
          have hskipn : shouldSkip sk n.name (joinRel base n.name) base = true := by
            rw [hnm]
            exact hskip
          have hpath := scanEntry_name_skip sk n base e hskipn hne2
          rw [hpath, ← hJ] at hpre
          have := hpre.length_le
          simp at this
        · exact not_pref_join base name n.name hname_ne (wfNode_name hwfn).2 hab2
      · rcases List.prefix_concat_iff.mp hba with hba2 | hba2
        · have hJ : joinRel base n.name = joinRel base name := by
            have := congrArg List.dropLast hba2
            rwa [List.dropLast_concat, List.dropLast_concat] at this
          have hnm : n.name = name := joinRel_inj hJ
          have hskipn : shouldSkip sk n.name (joinRel base n.name) base = true := by
            rw [hnm]
            exact hskip
          have hpath := scanEntry_name_skip sk n base e hskipn hne2
          rw [hpath, hJ] at hpre
          have := hpre.length_le
          simp at this
        · exact not_pref_join base n.name name (wfNode_name hwfn).1 hname_ns hba2
  · intro sp root hsp hnesp hwfr e he hpre
    rcases root with ⟨rn, rsz, rso⟩ | ⟨rn, rchildren, rso, rro⟩
    · simp [scanDirectory] at he
    · by_cases hrro : rro = true
      · subst hrro
        simp only [scanDirectory] at he
        rw [mem_sortDescBy] at he
        obtain ⟨n, hn, hns, hne2⟩ := (mem_scanList sk e rchildren []).mp he
        have hwfn := wfForest_mem (wfNode_children hwfr) hn
        refine scan_notUnder sk sp hsp hnesp (sizeOf n) n [] e (le_refl _) hwfn ?_ hne2 hpre
        rintro (h | h)
        · exact hnesp h.symm
        · have := h.length_le
          simp at this
      · have hrro2 : rro = false := by
          cases rro
          · rfl
          · exact absurd rfl hrro
        subst hrro2
        simp [scanDirectory] at he

/-- C2 (amended): every read failure is absorbed inside the scanner.  A
file or subdirectory whose `statSync` fails contributes a warning and no
entry, and the rest of the level is scanned unchanged; a not-skipped
subdirectory whose `statSync` succeeds but whose listing fails is pushed
as a zero-sized directory entry (its `getDirSize` is 0) together with a
warning, its contents omitted; and a root whose listing fails — or that
is not a directory — is caught by the same try/catch, yielding the empty
sequence and a warning: nothing is ever propagated to the caller. -/
theorem scan_error_absorption :
    (∀ (sk : List Str) (pre post : List FSNode) (c : FSNode) (base : Str),
      c.statOk = false →
      scanList sk (pre ++ c :: post) base =
        ((scanList sk pre base).1 ++ (scanList sk post base).1,
         (scanList sk pre base).2
           ++ Warning.accessFailed (joinRel base c.name) :: (scanList sk post base).2)) ∧
    (∀ (sk : List Str) (n : Str) (children : List FSNode) (so : Bool) (base : Str),
      shouldSkip sk n (joinRel base n) base = false →
      scanEntry sk (FSNode.dir n children so false) base =
        ([⟨joinRel base n, true, 0⟩], [Warning.readDirFailed (joinRel base n)])) ∧
    (∀ (sk : List Str) (n : Str) (children : List FSNode) (so : Bool),
      scanDirectory (FSNode.dir n children so false) sk = ([], [Warning.readDirFailed []])) ∧
    (∀ (sk : List Str) (n : Str) (sz : Nat) (so : Bool),
      scanDirectory (FSNode.file n sz so) sk = ([], [Warning.readDirFailed []])) := by
  refine ⟨?_, ?_, ?_, ?_⟩
  · intro sk pre post c base hstat
    induction pre with
    | nil =>
      simp only [List.nil_append]
      rw [scanList, scanList]
      simp [hstat]
    | cons p pre2 ih =>
      rw [List.cons_append, scanList]
      conv_rhs => rw [scanList]
      rw [ih]
      simp [List.append_assoc]
  · intro sk n children so base hskip
    rw [scanEntry]
    simp only [hskip, Bool.false_eq_true, if_false]
    simp [getDirSize]
  · intro sk n children so
    rfl
  · intro sk n sz so
    rfl

/-- C2 counterexample: the claim says a root-directory read failure is
propagated to the scanner's caller and that an unreadable subdirectory
is omitted from the results.  In the code both are absorbed: an
unreadable root returns normally with zero entries and a warning, and a
stat-able subdirectory whose listing fails still appears as a zero-sized
entry (src/index.js lines 227-234 push it before the recursive
`readdirSync` throws and is caught at line 251). -/
theorem scan_root_swallowed_cex :
    (scanDirectory (FSNode.dir "root".data [FSNode.file "big.bin".data 999999 true] true false) []
      = ([], [Warning.readDirFailed []])) ∧
    ((⟨"locked".data, true, 0⟩ : Entry) ∈
      (scanDirectory
        (FSNode.dir "root".data
          [FSNode.dir "locked".data [FSNode.file "x".data 5 true] true false] true true) []).1) := by
  exact ⟨by decide, by decide⟩

/-- C9 counterexample: the claim's universal — every directory at depth
one or more whose bare name is in the skip set is descended into — is
false.  `CONFIG.COMMON_EXCLUDE_DIRS` contains both the slash-free name
`images` and the path-qualified entry `assets/images`, so the depth-one
directory `assets/images` (bare name `images` in the skip set) is
skipped by the path-qualified rule (src/index.js lines 211-214): it is
recorded as a zero-sized entry and its descendant `pic.png` never
appears in the output. -/
theorem nested_skip_claim_cex :
    ("images".data ∈ commonExcludeDirs) ∧
    ((⟨"assets/images".data, true, 0⟩ : Entry) ∈
      (scanDirectory cexTree commonExcludeDirs).1) ∧
    (∀ e ∈ (scanDirectory cexTree commonExcludeDirs).1,
      e.path ≠ "assets/images/pic.png".data) := by
  exact ⟨by decide, by decide, by decide⟩

/-- Only a slash-containing skip entry equal to the full relative path
can match a directory below the top level. -/
theorem shouldSkip_nested_false (sk : List Str) (n base : Str) (hb : base ≠ [])
    (hq : ∀ sp ∈ sk, '/' ∈ sp → joinRel base n ≠ sp) :
    shouldSkip sk n (joinRel base n) base = false := by
  rw [shouldSkip, List.any_eq_false]
  intro sp hsp
  by_cases hslash : '/' ∈ sp
  · rw [if_neg (not_not_intro hslash)]
    simp [hq sp hsp hslash]
  · rw [if_pos hslash]
    simp [hb]

/-- C9 (amended): a slash-free skip name suppresses only the top-level
directory of that name, but a path-qualified skip entry applies at any
depth.  For every directory at depth one or more whose bare name is in
the skip set but whose full relative path equals no slash-containing
skip entry, the scanner descends: it emits the directory's entry with
its recursive size and every entry its children's scan produces.  Such
descendant paths are never matched by the slash-free default pattern
`name/**` (its prefix test fails under a different top segment), and in
the concrete default configuration `sub/node_modules/data.txt` is
scanned and its 777 bytes are counted by the estimator under the
default excludes (plus the 3-entry overhead of 300). -/
theorem nested_skip_not_suppressed :
    (∀ (sk : List Str) (nodes : List FSNode) (base : Str) (n : Str)
        (children : List FSNode),
      base ≠ [] →
      n ∈ sk →
      (∀ sp ∈ sk, '/' ∈ sp → joinRel base n ≠ sp) →
      FSNode.dir n children true true ∈ nodes →
      ((⟨joinRel base n, true, getDirSize (FSNode.dir n children true true)⟩ : Entry) ∈
          (scanList sk nodes base).1) ∧
        (∀ e ∈ (scanList sk children (joinRel base n)).1, e ∈ (scanList sk nodes base).1)) ∧
    (∀ (top sp fname : Str), ¬ '/' ∈ top → top ≠ sp → ¬ '/' ∈ sp →
      isPathExcludedL (top ++ '/' :: (sp ++ '/' :: fname)) (sp ++ slashStarStar) = false) ∧
    ((⟨"sub/node_modules/data.txt".data, false, 777⟩ : Entry) ∈
      (scanDirectory demoTree commonExcludeDirs).1) ∧
    (estimateFinalSize (scanDirectory demoTree commonExcludeDirs).1 defaultExcludes
      = 777 + 300) := by
  refine ⟨?_, ?_, by decide, by decide⟩
  · intro sk nodes base n children hb hn hq hmem
    have hss := shouldSkip_nested_false sk n base hb hq
    have hout : (scanEntry sk (FSNode.dir n children true true) base).1
        = (⟨joinRel base n, true, getDirSize (FSNode.dir n children true true)⟩ : Entry)
            :: (scanList sk children (joinRel base n)).1 := by
      rw [scanEntry]
      simp [hss]
    constructor
    · rw [mem_scanList]
      refine ⟨FSNode.dir n children true true, hmem, rfl, ?_⟩
      rw [hout]
      exact List.mem_cons_self _ _
    · intro e he
      rw [mem_scanList]
      refine ⟨FSNode.dir n children true true, hmem, rfl, ?_⟩
      rw [hout]
      exact List.mem_cons_of_mem _ he
  · intro top sp fname htop hne hsp
    have hsuf : slashStarStar <:+ sp ++ slashStarStar := ⟨sp, rfl⟩
    rw [isPathExcludedL, if_pos hsuf]
    have hdir : (sp ++ slashStarStar).take ((sp ++ slashStarStar).length - 3) = sp := by
      have : (sp ++ slashStarStar).length - 3 = sp.length := by
        simp [slashStarStar]
      rw [this]
      exact List.take_left sp slashStarStar
    simp only [ ite_self, hdir, decide_eq_false_iff_not]
    rintro (heq | hpre)
    · refine hsp ?_
      rw [← heq]
      exact List.mem_append.mpr (Or.inr (List.mem_cons_self _ _))
    · exact hne (seg_eq_of_pref (sp ++ '/' :: fname) top sp hsp htop hpre).symm

theorem estimate_eq_filter (items : List Entry) (Q : List Str) :
    estimateFinalSize items Q =
      ((items.filter fun it => !it.isDirectory && !isExcludedL it.path Q).map Entry.size).sum
        + min (items.length * 100) (50 * 1024) := by
  unfold estimateFinalSize
  rw [foldl_size_filter]
  simp

theorem isPathExcludedL_literal (p a : Str) (h : ¬ '*' ∈ a) :
    isPathExcludedL p a = decide (p = a) := by
  have hsuf : ¬ slashStarStar <:+ a := fun hs => h (star_of_suffix hs)
  rw [isPathExcludedL, if_neg hsuf, if_pos h]

theorem any_literal (p : Str) : ∀ (A : List Str), (∀ a ∈ A, ¬ '*' ∈ a) →
    A.any (fun pat => isPathExcludedL p pat) = decide (p ∈ A) := by
  intro A
  induction A with
  | nil => intro _; simp
  | cons a as ih =>
    intro hA
    rw [List.any_cons, isPathExcludedL_literal p a (hA a (List.mem_cons_self _ _)),
      ih (fun b hb => hA b (List.mem_cons_of_mem _ hb))]
    by_cases hpa : p = a <;> by_cases hpm : p ∈ as <;> simp [hpa, hpm]

theorem isExcludedL_append_lits (p : Str) (P A : List Str) (hA : ∀ a ∈ A, ¬ '*' ∈ a) :
    isExcludedL p (P ++ A) = (isExcludedL p P || decide (p ∈ A)) := by
  rw [isExcludedL, isExcludedL, List.any_append, any_literal p A hA]

theorem sum_filter_split (items : List Entry) (p q : Entry → Bool) :
    ((items.filter p).map Entry.size).sum
      = ((items.filter fun it => p it && q it).map Entry.size).sum
        + ((items.filter fun it => p it && !q it).map Entry.size).sum := by
  induction items with
  | nil => simp
  | cons it rest ih =>
    by_cases hp : p it <;> by_cases hq : q it <;> simp [hp, hq, ih] <;> omega

theorem nodup_path_inj : ∀ {items : List Entry}, (items.map Entry.path).Nodup →
    ∀ {it1 it2 : Entry}, it1 ∈ items → it2 ∈ items → it1.path = it2.path → it1 = it2 := by
  intro items
  induction items with
  | nil => intro _ it1 it2 h1; simp at h1
  | cons x rest ih =>
    intro hd it1 it2 h1 h2 hp
    rw [List.map_cons, List.nodup_cons] at hd
    rcases List.mem_cons.mp h1 with he1 | h1m
    · rcases List.mem_cons.mp h2 with he2 | h2m
      · rw [he1, he2]
      · exfalso
        apply hd.1
        rw [← he1, hp]
        exact List.mem_map.mpr ⟨it2, h2m, rfl⟩
    · rcases List.mem_cons.mp h2 with he2 | h2m
      · exfalso
        apply hd.1
        rw [← he2, ← hp]
        exact List.mem_map.mpr ⟨it1, h1m, rfl⟩
      · exact ih hd.2 h1m h2m hp

theorem sum_size_int (l : List Entry) :
    (l.map fun it => (it.size : Int)).sum = (((l.map Entry.size).sum : Nat) : Int) := by
  induction l with
  | nil => simp
  | cons x rest ih => simp [ih]

/-- C10: for items with pairwise-distinct, wildcard-free paths, the
planner's arithmetic agrees with the estimator: the baseline estimate
minus the sizes of the auto-excluded files equals the estimate re-run
with those paths appended to the pattern list. -/
theorem planner_estimator_agreement (items : List Entry) (P : List Str) (bb : Int) (en : Bool)
    (hd : (items.map Entry.path).Nodup)
    (hstar : ∀ it ∈ items, ¬ '*' ∈ it.path)
    (hsuf : ∀ it ∈ items, ¬ slashStarStar <:+ it.path) :
    (estimateFinalSize items P : Int)
      - ((items.filter fun it =>
            decide (it.path ∈
              autoExcludeFiles (fileChoicesOf items P) (estimateFinalSize items P : Int) bb en)).map
          fun it => (it.size : Int)).sum
      = (estimateFinalSize items
          (P ++ autoExcludeFiles (fileChoicesOf items P) (estimateFinalSize items P : Int) bb en)
          : Int) := by
  set A := autoExcludeFiles (fileChoicesOf items P) (estimateFinalSize items P : Int) bb en with hAdef
  have hgood : ∀ a ∈ A, ∃ it, it ∈ items ∧ it.isDirectory = false ∧
      isExcludedL it.path P = false ∧ it.path = a := by
    intro a ha
    obtain ⟨c, hc, hchk, hval⟩ :=
      autoExcludeFiles_values (fileChoicesOf items P) _ bb en a (hAdef ▸ ha)
    obtain ⟨it, him, hdir, hpath, -, hflag⟩ := fileChoicesOf_values items P c hc
    refine ⟨it, him, hdir, ?_, by rw [hpath, hval]⟩
    rw [← hflag, hchk]
  have hAstar : ∀ a ∈ A, ¬ '*' ∈ a := by
    intro a ha
    obtain ⟨it, him, -, -, hpath⟩ := hgood a ha
    exact hpath ▸ hstar it him
  have hkeep : ∀ it ∈ items,
      (!it.isDirectory && !isExcludedL it.path (P ++ A))
        = ((!it.isDirectory && !isExcludedL it.path P) && !(decide (it.path ∈ A))) := by
    intro it _
    rw [isExcludedL_append_lits it.path P A hAstar]
    cases it.isDirectory <;> cases h1 : isExcludedL it.path P <;>
      cases h2 : decide (it.path ∈ A) <;> simp
  have hmemgood : ∀ it ∈ items, decide (it.path ∈ A) = true →
      (!it.isDirectory && !isExcludedL it.path P) = true := by
    intro it him hm
    rw [decide_eq_true_iff] at hm
    obtain ⟨it2, him2, hdir2, hexc2, hpath2⟩ := hgood it.path hm
    have : it = it2 := nodup_path_inj hd him him2 (by rw [hpath2])
    subst this
    rw [hdir2, hexc2]
    rfl
  rw [estimate_eq_filter items P, estimate_eq_filter items (P ++ A)]
  rw [List.filter_congr hkeep]
  have hsplit := sum_filter_split items
    (fun it => !it.isDirectory && !isExcludedL it.path P) (fun it => decide (it.path ∈ A))
  have hfc2 : items.filter (fun it => decide (it.path ∈ A))
      = items.filter
          (fun it => (!it.isDirectory && !isExcludedL it.path P) && decide (it.path ∈ A)) := by
    refine List.filter_congr ?_
    intro it him
    by_cases hm : decide (it.path ∈ A) = true
    · rw [hm, hmemgood it him hm]
      rfl
    · rw [Bool.not_eq_true] at hm
      rw [hm]
      simp
  rw [hfc2, sum_size_int, hsplit]
  push_cast
  ring

/-- Witness: the amended C1 statement at pattern `*.min.js`. -/
theorem wildcard_regex_semantics_wit :
    (isPathExcludedL "x.min.js".data "*.min.js".data
        = rmatch (tokenize "*.min.js".data) "x.min.js".data) ∧
    isPathExcludedL "app.min.js".data "*.min.js".data = true ∧
    isPathExcludedL "sub/app.min.js".data "*.min.js".data = false ∧
    isPathExcludedL "appxminxjs".data "*.min.js".data = true ∧
    isPathExcludedL "sub/app.min.js".data "**/*.min.js".data = true ∧
    isPathExcludedL "app.min.js".data "**/*.min.js".data = false :=
  wildcard_regex_semantics "*.min.js".data "x.min.js".data (by decide) (by decide) (by decide)

/-- Witness: the C2 absorption statement at concrete unreadable nodes. -/
theorem scan_error_absorption_wit :
    (scanList [] ([] ++ FSNode.file "f".data 3 false :: []) [] =
      ((scanList [] [] []).1 ++ (scanList [] [] []).1,
       (scanList [] [] []).2
         ++ Warning.accessFailed (joinRel [] (FSNode.file "f".data 3 false).name)
           :: (scanList [] [] []).2)) ∧
    (scanEntry [] (FSNode.dir "d".data [] true false) [] =
      ([⟨joinRel [] "d".data, true, 0⟩], [Warning.readDirFailed (joinRel [] "d".data)])) ∧
    (scanDirectory (FSNode.dir "r".data [] true false) [] = ([], [Warning.readDirFailed []])) ∧
    (scanDirectory (FSNode.file "g".data 7 true) [] = ([], [Warning.readDirFailed []])) :=
  ⟨scan_error_absorption.1 [] [] [] (FSNode.file "f".data 3 false) [] (by decide),
   scan_error_absorption.2.1 [] "d".data [] true [] (by decide),
   scan_error_absorption.2.2.1 [] "r".data [] true,
   scan_error_absorption.2.2.2 [] "g".data 7 true⟩

/-- Witness: the planner characterization on the spec's 500/300/200/100
KB scenario with a 400 KB budget. -/
theorem planner_greedy_characterization_wit :
    (autoExcludeFiles demoChoices 1126400 409600 false = []) ∧
    (autoExcludeFiles demoChoices 409600 409600 true = []) ∧
    (∃ k, k ≤ (candidatesOf demoChoices).length ∧
      autoExcludeFiles demoChoices 1126400 409600 true
        = ((candidatesOf demoChoices).take k).map Choice.value ∧
      (∀ i, i < k →
        100 * (1126400 - sumSizesInt ((candidatesOf demoChoices).take i)) > 95 * 409600) ∧
      (k = (candidatesOf demoChoices).length ∨
        100 * (1126400 - sumSizesInt ((candidatesOf demoChoices).take k)) ≤ 95 * 409600)) :=
  ⟨(planner_greedy_characterization demoChoices 1126400 409600).1,
   (planner_greedy_characterization demoChoices 409600 409600).2.1 (by decide),
   (planner_greedy_characterization demoChoices 1126400 409600).2.2.2.1 (by decide)⟩

/-- Witness: the estimator's overhead cap at exactly 10000 entries. -/
theorem estimator_characterization_wit :
    estimateFinalSize bigItems [] =
      ((bigItems.filter fun it => !it.isDirectory && !isExcludedL it.path []).map Entry.size).sum
        + 50 * 1024 :=
  (estimator_characterization bigItems []).2.2 (by rw [bigItems, List.length_replicate])

/-- Witness: the reconciler on the spec's two-file override scenario. -/
theorem reconciler_characterization_wit :
    (reconcileFinalExcludes ["x".data] [] ["A".data]).Nodup ∧
    (reconcileFinalExcludes ["x".data] [] ["A".data]).Sublist
      (["x".data] ++ [] ++ ["A".data]) ∧
    processUnselectedAutoExcludes ["A".data, "B".data] ["A".data] = ["B".data] ∧
    ¬ "B".data ∈ reconcileFinalExcludes ["x".data] [] ["A".data] :=
  ⟨(reconciler_characterization ["x".data] [] ["A".data] ["A".data, "B".data]
      "A".data "B".data (by decide) (by decide) (by decide)).2.1,
   (reconciler_characterization ["x".data] [] ["A".data] ["A".data, "B".data]
      "A".data "B".data (by decide) (by decide) (by decide)).2.2.1,
   (reconciler_characterization ["x".data] [] ["A".data] ["A".data, "B".data]
      "A".data "B".data (by decide) (by decide) (by decide)).2.2.2.2.1,
   (reconciler_characterization ["x".data] [] ["A".data] ["A".data, "B".data]
      "A".data "B".data (by decide) (by decide) (by decide)).2.2.2.2.2⟩

/-- Witness: the skip semantics on a top-level `node_modules`. -/
theorem scan_skip_semantics_wit :
    ((⟨joinRel [] "node_modules".data, true, 0⟩ : Entry) ∈
      (scanList ["node_modules".data]
        [FSNode.dir "node_modules".data [FSNode.file "x".data 5 true] true true,
         FSNode.file "a.txt".data 3 true] []).1) ∧
    (∀ e ∈ (scanList ["node_modules".data]
        [FSNode.dir "node_modules".data [FSNode.file "x".data 5 true] true true,
         FSNode.file "a.txt".data 3 true] []).1,
      ¬ ((joinRel [] "node_modules".data ++ ['/']) <+: e.path)) ∧
    (∀ (sp : Str) (root : FSNode), sp ∈ ["node_modules".data] → sp ≠ [] → wfNode root = true →
      ∀ e ∈ (scanDirectory root ["node_modules".data]).1, ¬ ((sp ++ ['/']) <+: e.path)) :=
  scan_skip_semantics ["node_modules".data]
    [FSNode.dir "node_modules".data [FSNode.file "x".data 5 true] true true,
     FSNode.file "a.txt".data 3 true] []
    "node_modules".data [FSNode.file "x".data 5 true] true
    (by decide) (List.mem_cons_self _ _) (by decide)

/-- Witness: the `/**` matcher characterization at pattern `src/**`. -/
theorem dir_subtree_pattern_wit :
    (isPathExcludedL "src/index.ts".data "src/**".data = true ↔
      "src/index.ts".data = "src/**".data.take ("src/**".data.length - 3) ∨
        ("src/**".data.take ("src/**".data.length - 3) ++ ['/']) <+: "src/index.ts".data) ∧
    isPathExcludedL "src/index.ts".data "src/**".data = true ∧
    isPathExcludedL "srcx/index.ts".data "src/**".data = false ∧
    isPathExcludedL "src".data "src/**".data = true :=
  dir_subtree_pattern "src/index.ts".data "src/**".data (by decide)

/-- Witness: the literal matcher characterization at
`package-lock.json`. -/
theorem literal_pattern_exact_wit :
    (isPathExcludedL "package-lock.json".data "package-lock.json".data = true ↔
      "package-lock.json".data = "package-lock.json".data) ∧
    isPathExcludedL "package-lock.json".data "package-lock.json".data = true ∧
    isPathExcludedL "sub/package-lock.json".data "package-lock.json".data = false :=
  literal_pattern_exact "package-lock.json".data "package-lock.json".data (by decide)

/-- Witness: the amended nested-skip statement, descending into a
`node_modules` nested under `sub` with the default skip set, and the
matcher part at `sub/node_modules/data.txt`. -/
theorem nested_skip_not_suppressed_wit :
    (((⟨joinRel "sub".data "node_modules".data, true,
          getDirSize (FSNode.dir "node_modules".data [FSNode.file "x".data 5 true] true true)⟩
        : Entry) ∈
        (scanList commonExcludeDirs
          [FSNode.dir "node_modules".data [FSNode.file "x".data 5 true] true true]
          "sub".data).1) ∧
      (∀ e ∈ (scanList commonExcludeDirs [FSNode.file "x".data 5 true]
          (joinRel "sub".data "node_modules".data)).1,
        e ∈ (scanList commonExcludeDirs
          [FSNode.dir "node_modules".data [FSNode.file "x".data 5 true] true true]
          "sub".data).1)) ∧
    (isPathExcludedL ("sub".data ++ '/' :: ("node_modules".data ++ '/' :: "data.txt".data))
        ("node_modules".data ++ slashStarStar) = false) :=
  ⟨nested_skip_not_suppressed.1 commonExcludeDirs
      [FSNode.dir "node_modules".data [FSNode.file "x".data 5 true] true true]
      "sub".data "node_modules".data [FSNode.file "x".data 5 true]
      (by decide) (by decide) (by decide) (List.mem_cons_self _ _),
   nested_skip_not_suppressed.2.1 "sub".data "node_modules".data "data.txt".data
      (by decide) (by decide) (by decide)⟩

/-- Witness: planner/estimator agreement on two concrete files over a
400 KB budget. -/
theorem planner_estimator_agreement_wit :
    (estimateFinalSize demoItems [] : Int)
      - ((demoItems.filter fun it =>
            decide (it.path ∈
              autoExcludeFiles (fileChoicesOf demoItems []) (estimateFinalSize demoItems [] : Int)
                409600 true)).map
          fun it => (it.size : Int)).sum
      = (estimateFinalSize demoItems
          ([] ++ autoExcludeFiles (fileChoicesOf demoItems [])
            (estimateFinalSize demoItems [] : Int) 409600 true)
          : Int) :=
  planner_estimator_agreement demoItems [] 409600 true (by decide) (by decide) (by decide)

end C2PM
